import Mathlib

/-!
Shallow embedding of `numpy/lib/stride_tricks.py`: strided views
(`as_strided`), sliding windows (`sliding_window_view`), broadcasting
(`_broadcast_to`, `broadcast_to`, `_broadcast_shape`, `broadcast_arrays`).

Arrays are modelled as a header (shape, strides, base offset) over an
addressable storage `data : Int → Int` (unit itemsize), together with a
storage identifier used to express aliasing, a writability flag and an
element type.  Strides are in storage units and may be negative.
-/

namespace StrideTricks

/-- Element type of an array; `structured` models non-trivially structured
dtypes (named fields), which the generic interface path cannot represent. -/
inductive DType where
  | base (code : Nat)
  | structured (fields : List (Nat × Nat))
  deriving DecidableEq

/-- Modelled from the spec: the generic interface path (`__array_interface__`
typestr) used inside `as_strided` can lose element-type metadata; a
structured dtype degrades to an unstructured byte type. -/
def DType.interfaceTypestr : DType → DType
  | .base c => .base c
  | .structured _ => .base 0

/-- An array header over shared storage: shape, per-axis strides (storage
units, signed), base offset, the storage contents, an identifier of the
backing storage buffer, writability, and element type. -/
structure ArrayView where
  shape : List Nat
  strides : List Int
  offset : Int
  data : Int → Int
  storageId : Nat
  writeable : Bool
  dtype : DType

/-- `idx` is a valid multi-index for `shape`: same length, each entry in
range. -/
def validIdx : List Nat → List Nat → Bool
  | [], [] => true
  | i :: is, d :: ds => decide (i < d) && validIdx is ds
  | _, _ => false

/-- Strided dot product `Σ idx[i] * strides[i]` (pointer arithmetic). -/
def dot (idx : List Nat) (strides : List Int) : Int :=
  (List.zipWith (fun (i : Nat) (s : Int) => (i : Int) * s) idx strides).sum

/-- Read the element of `a` at multi-index `idx`. -/
def read (a : ArrayView) (idx : List Nat) : Int :=
  a.data (a.offset + dot idx a.strides)

/-- Row-major contiguous strides for a shape (unit itemsize). -/
def contigStrides : List Nat → List Int
  | [] => []
  | _ :: ds => (ds.prod : Int) :: contigStrides ds

/-- Row-major flattening of a multi-index. -/
def flattenIdx : List Nat → List Nat → Nat
  | i :: is, _ :: ds => i * ds.prod + flattenIdx is ds
  | _, _ => 0

/-- Row-major unflattening of a linear index over a shape. -/
def unflatten (n : Nat) : List Nat → List Nat
  | [] => []
  | _ :: ds => n / ds.prod :: unflatten (n % ds.prod) ds

/-- Modelled from the spec: `ndarray.copy()` (not under `src/`): a deep,
writable, contiguous copy of the view's logical content in a freshly
allocated buffer (a storage identifier distinct from the source's). -/
def copy (a : ArrayView) : ArrayView :=
  { shape := a.shape
    strides := contigStrides a.shape
    offset := 0
    data := fun k => read a (unflatten k.toNat a.shape)
    storageId := a.storageId + 1
    writeable := true
    dtype := a.dtype }

/-- Modelled from the spec: the reinterpret-with-new-shape/strides
constructor (`np.asarray` of a `DummyArray` carrying the modified
`__array_interface__`): same storage, new header, element type degraded
through the interface typestr. -/
def interfaceView (x : ArrayView) (shape : Option (List Nat))
    (strides : Option (List Int)) : ArrayView :=
  { x with
    shape := shape.getD x.shape
    strides := strides.getD x.strides
    dtype := x.dtype.interfaceTypestr }

/-- `as_strided(x, shape, strides, subok, writeable)`: build the interface
view, restore the dtype explicitly (the interface route does not preserve
structured dtypes), and clear writability if `writeable` is false. -/
def as_strided (x : ArrayView) (shape : Option (List Nat) := none)
    (strides : Option (List Int) := none) (_subok : Bool := false)
    (writeable : Bool := true) : ArrayView :=
  let array := { interfaceView x shape strides with dtype := x.dtype }
  { array with writeable := array.writeable && writeable }

/-- The distinct error conditions raised by the module. -/
inductive Err where
  | shapeNotIntSeq
  | shapeNotOneDim
  | shapeLenMismatch
  | shapeNonPositive
  | stepNotIntSeq
  | stepNotOneDim
  | stepLenMismatch
  | stepNonPositive
  | windowTooLarge
  | nonScalarToScalar
  | negativeDim
  | broadcastIncompatible
  deriving DecidableEq

/-- A `shape`/`step` argument as passed by the caller: a flat integer
sequence, a nested sequence, or a sequence containing non-integers. -/
inductive SeqArg where
  | ints (xs : List Int)
  | nested (xss : List (List Int))
  | nonint

/-- `np.array(arg, int)` followed by the `ndim > 1` check: non-integer
content fails conversion (`errT`); a rectangular nested sequence converts
to a 2-d array and is rejected as not one-dimensional (`errV`); a ragged
nested sequence fails conversion (`errT`); an empty nested sequence
converts to an empty 1-d array. -/
def parseSeq (errT errV : Err) : SeqArg → Except Err (List Int)
  | .nonint => .error errT
  | .ints xs => .ok xs
  | .nested [] => .ok []
  | .nested (xs :: rest) =>
    if rest.all (fun l => l.length == xs.length) then .error errV
    else .error errT

/-- The `step` handling of `sliding_window_view`: default all-ones,
otherwise parse and validate (flat, matching length, strictly positive). -/
def parseStep (x : ArrayView) : Option SeqArg → Except Err (List Int)
  | none => .ok (List.replicate x.shape.length 1)
  | some sa =>
    match parseSeq .stepNotIntSeq .stepNotOneDim sa with
    | .error e => .error e
    | .ok st =>
      if st.length ≠ x.shape.length then .error .stepLenMismatch
      else if st.any (fun a => decide (a ≤ 0)) then .error .stepNonPositive
      else .ok st

/-- Per-axis output extents `(x.shape - shape) // step + 1` (floor
division, as in Python). -/
def outExtents (shape : List Nat) (ws st : List Int) : List Int :=
  List.zipWith (fun (p : Nat × Int) (s : Int) => ((p.1 : Int) - p.2).fdiv s + 1)
    (shape.zip ws) st

/-- `sliding_window_view(x, shape, step, subok, writeable)`: validate the
window shape (flat, matching length, positive), then the step likewise,
then the output extents; build the view via `as_strided` with shape
`o ++ shape` and strides `(strides * step) ++ strides`; deep-copy it when
`writeable` is requested. -/
def sliding_window_view (x : ArrayView) (shapeArg : SeqArg)
    (stepArg : Option SeqArg := none) (subok : Bool := false)
    (writeable : Bool := false) : Except Err ArrayView :=
  match parseSeq .shapeNotIntSeq .shapeNotOneDim shapeArg with
  | .error e => .error e
  | .ok ws =>
    if ws.length ≠ x.shape.length then .error .shapeLenMismatch
    else if ws.any (fun a => decide (a ≤ 0)) then .error .shapeNonPositive
    else
      match parseStep x stepArg with
      | .error e => .error e
      | .ok st =>
        let o := outExtents x.shape ws st
        if o.any (fun a => decide (a ≤ 0)) then .error .windowTooLarge
        else
          let viewStrides := List.zipWith (· * ·) x.strides st
          let viewShape := o.map Int.toNat ++ ws.map Int.toNat
          let v := as_strided x (some viewShape) (some (viewStrides ++ x.strides))
                     subok writeable
          if writeable then .ok (copy v) else .ok v

/-- Equal-length axis compatibility: each source axis is size 1 or equal to
the target axis. -/
def compatPair : List Nat → List Nat → Bool
  | [], [] => true
  | d :: ds, t :: ts => (d == 1 || d == t) && compatPair ds ts
  | _, _ => false

/-- Right-aligned broadcast compatibility of a source shape with a target:
pad the source on the left with size-1 axes to the target rank, then each
aligned axis must be 1 or equal. -/
def compatible (src target : List Nat) : Bool :=
  decide (src.length ≤ target.length) &&
    compatPair (List.replicate (target.length - src.length) 1 ++ src) target

/-- Pointwise broadcast strides over equal-length lists: an axis stretched
from size 1 to a larger target gets stride 0, otherwise the source stride
is kept. -/
def bStrides3 : List Nat → List Int → List Nat → List Int
  | d :: ds, s :: ss, t :: ts =>
    (if d == 1 && decide (1 < t) then 0 else s) :: bStrides3 ds ss ts
  | _, _, _ => []

/-- Strides of the broadcast view: padded leading axes get stride 0, a
size-1 source axis stretched to a larger target gets stride 0, any other
axis keeps the source stride. -/
def broadcastStrides (shape : List Nat) (strides : List Int)
    (target : List Nat) : List Int :=
  bStrides3 (List.replicate (target.length - shape.length) 1 ++ shape)
    (List.replicate (target.length - shape.length) 0 ++ strides) target

/-- `_broadcast_to(array, shape, subok, readonly)`: reject a non-scalar
source with an empty target, reject negative target entries, then (modelled
from the spec: the `np.nditer` itviews broadcasting primitive, not under
`src/`) produce the view at the target shape with broadcast strides; the
result is writable exactly when not `readonly` and the source is writable. -/
def broadcastToImpl (a : ArrayView) (shape : List Int) (_subok readonly : Bool) :
    Except Err ArrayView :=
  if shape.isEmpty && !a.shape.isEmpty then .error .nonScalarToScalar
  else if shape.any (fun s => decide (s < 0)) then .error .negativeDim
  else if compatible a.shape (shape.map Int.toNat) then
    .ok { a with
           shape := shape.map Int.toNat
           strides := broadcastStrides a.shape a.strides (shape.map Int.toNat)
           writeable := !readonly && a.writeable }
  else .error .broadcastIncompatible

/-- `broadcast_to(array, shape, subok)`: the read-only public entry. -/
def broadcast_to (a : ArrayView) (shape : List Int) (subok : Bool := false) :
    Except Err ArrayView :=
  broadcastToImpl a shape subok true

/-- Equal-length unifiability test for two padded shapes. -/
def unifyOk : List Nat → List Nat → Bool
  | [], [] => true
  | x :: xs, y :: ys => (x == 1 || y == 1 || x == y) && unifyOk xs ys
  | _, _ => false

/-- Modelled from the spec: the pairwise right-aligned shape unification
performed by `np.broadcast` (not under `src/`): pad both shapes on the left
with 1s to a common rank; axes must be equal or one of them 1; a size-1
axis stretches to the other. -/
def unify (a b : List Nat) : Option (List Nat) :=
  if unifyOk (List.replicate (max a.length b.length - a.length) 1 ++ a)
      (List.replicate (max a.length b.length - b.length) 1 ++ b) then
    some (List.zipWith (fun x y => if x = 1 then y else x)
      (List.replicate (max a.length b.length - a.length) 1 ++ a)
      (List.replicate (max a.length b.length - b.length) 1 ++ b))
  else none

/-- Modelled from the spec: `np.broadcast(*shapes)` resolves the common
broadcast shape of its operands (at most 32 of them). -/
def broadcastMany (shapes : List (List Nat)) : Option (List Nat) :=
  shapes.foldlM unify []

/-- The batching loop of `_broadcast_shape`: fold the running resolved
shape back in as a synthetic operand and resolve 31 further shapes per
round. -/
def bshapeLoop (b : List Nat) (rest : List (List Nat)) : Option (List Nat) :=
  if hr : rest.isEmpty then some b
  else
    match broadcastMany (b :: rest.take 31) with
    | none => none
    | some bNext => bshapeLoop bNext (rest.drop 31)
termination_by rest.length
decreasing_by
  simp only [List.length_drop]
  have hne : rest ≠ [] := by simpa [List.isEmpty_iff] using hr
  have : 0 < rest.length := List.length_pos.mpr hne
  omega

/-- `_broadcast_shape(*args)`: `()` for no arguments, otherwise resolve the
first 32 shapes at once and batch the remainder in groups of 31. -/
def bshape (shapes : List (List Nat)) : Option (List Nat) :=
  match shapes with
  | [] => some []
  | _ :: _ =>
    match broadcastMany (shapes.take 32) with
    | none => none
    | some b => bshapeLoop b (shapes.drop 32)

/-- The per-array view construction of `broadcast_arrays` (its list
comprehension over `_broadcast_to(array, shape, subok, readonly=False)`). -/
def mapBroadcast (shape : List Int) (subok : Bool) :
    List ArrayView → Except Err (List ArrayView)
  | [] => .ok []
  | a :: rest =>
    match broadcastToImpl a shape subok false with
    | .error e => .error e
    | .ok v =>
      match mapBroadcast shape subok rest with
      | .error e => .error e
      | .ok vs => .ok (v :: vs)

/-- `broadcast_arrays(*args, subok)`: resolve the unified shape, return the
inputs unchanged when they all already have it, otherwise broadcast each
input to it via the writable internal path. -/
def broadcast_arrays (args : List ArrayView) (subok : Bool := false) :
    Except Err (List ArrayView) :=
  match bshape (args.map (·.shape)) with
  | none => .error .broadcastIncompatible
  | some shape =>
    if args.all (fun a => a.shape == shape) then .ok args
    else mapBroadcast (shape.map (fun d : Nat => (d : Int))) subok args

/-! ### Concrete arrays used by witnesses and examples -/

/-- The 3×4 row-major array with `x[i, j] = 10 * i + j`. -/
def x34 : ArrayView :=
  { shape := [3, 4], strides := [4, 1], offset := 0
    data := fun k => 10 * (k / 4) + k % 4
    storageId := 7, writeable := true, dtype := .base 3 }

/-- The value `broadcast_to x34 [3, 4]` computes to. -/
def btv34 : ArrayView :=
  { x34 with shape := [3, 4], strides := [4, 1], writeable := false }

/-! ### C9, C4, C7, C10 -/

/-- C9: for every source array and optional shape/strides (defaulting to the
source's own), `as_strided` returns a view sharing the source's backing
storage with no data copy, whose header carries exactly the requested shape
and strides, and whose element type is exactly the source's (explicitly
restored, since the interface path degrades structured dtypes); the source
itself — a pure value here — is left unmodified. -/
theorem as_strided_header_spec (x : ArrayView) (oshape : Option (List Nat))
    (ostrides : Option (List Int)) (subok w : Bool) :
    (as_strided x oshape ostrides subok w).storageId = x.storageId ∧
    (as_strided x oshape ostrides subok w).data = x.data ∧
    (as_strided x oshape ostrides subok w).offset = x.offset ∧
    (as_strided x oshape ostrides subok w).shape = oshape.getD x.shape ∧
    (as_strided x oshape ostrides subok w).strides = ostrides.getD x.strides ∧
    (as_strided x oshape ostrides subok w).dtype = x.dtype :=
  ⟨rfl, rfl, rfl, rfl, rfl, rfl⟩

/-- C4: whatever the source's writability, a successful `broadcast_to`
yields a read-only view. -/
theorem broadcast_to_readonly (a : ArrayView) (shape : List Int) (subok : Bool)
    (v : ArrayView) (h : broadcast_to a shape subok = .ok v) :
    v.writeable = false := by
  unfold broadcast_to broadcastToImpl at h
  split at h
  · cases h
  · split at h
    · cases h
    · split at h
      · cases h
        rfl
      · cases h

/-- Witness for C4 at the concrete array `x34` broadcast to its own shape. -/
theorem broadcast_to_readonly_witness :
    broadcast_to x34 [3, 4] = .ok btv34 ∧ btv34.writeable = false :=
  ⟨rfl, broadcast_to_readonly x34 [3, 4] false btv34 rfl⟩

/-- C7: `broadcast_to` rejects an empty target shape for a source of
nonzero rank with the non-scalar-to-scalar error, and rejects any target
shape containing a negative entry with the negative-dimension error; both
checks precede view construction. -/
theorem broadcast_to_scalar_negative_errors (a : ArrayView) (shape : List Int)
    (subok : Bool) :
    (shape = [] → a.shape ≠ [] →
      broadcast_to a shape subok = .error .nonScalarToScalar) ∧
    ((∃ s ∈ shape, s < 0) →
      broadcast_to a shape subok = .error .negativeDim) := by
  constructor
  · intro hs ha
    subst hs
    have : a.shape.isEmpty = false := by
      cases hsh : a.shape with
      | nil => exact absurd hsh ha
      | cons _ _ => rfl
    simp [broadcast_to, broadcastToImpl, this]
  · rintro ⟨s, hmem, hneg⟩
    have hne : shape.isEmpty = false := by
      cases shape with
      | nil => cases hmem
      | cons _ _ => rfl
    have hany : shape.any (fun s => decide (s < 0)) = true := by
      simp only [List.any_eq_true, decide_eq_true_eq]
      exact ⟨s, hmem, hneg⟩
    simp [broadcast_to, broadcastToImpl, hne, hany]

/-- Witness for C7: `broadcast_to(x34, ())` and `broadcast_to(x34, (-1,))`. -/
theorem broadcast_to_scalar_negative_errors_witness :
    broadcast_to x34 [] = .error .nonScalarToScalar ∧
    broadcast_to x34 [-1] = .error .negativeDim :=
  ⟨(broadcast_to_scalar_negative_errors x34 [] false).1 rfl (by decide),
   (broadcast_to_scalar_negative_errors x34 [-1] false).2
     ⟨-1, by simp, by decide⟩⟩

/-- C10: with zero input arrays, the shape resolver returns the empty shape
and `broadcast_arrays` succeeds with the empty list. -/
theorem broadcast_arrays_empty :
    broadcast_arrays ([] : List ArrayView) = .ok [] ∧
    bshape [] = some [] :=
  ⟨rfl, rfl⟩

/-! ### Shape-unification lemmas -/

theorem unifyOk_refl (s : List Nat) : unifyOk s s = true := by
  induction s with
  | nil => rfl
  | cons d ds ih => simp [unifyOk, ih]

theorem zipWith_unify_self (s : List Nat) :
    List.zipWith (fun x y => if x = 1 then y else x) s s = s := by
  induction s with
  | nil => rfl
  | cons d ds ih => simp [ih]

theorem unify_self (s : List Nat) : unify s s = some s := by
  simp [unify, unifyOk_refl, zipWith_unify_self]

theorem unifyOk_ones (b : List Nat) :
    unifyOk (List.replicate b.length 1) b = true := by
  induction b with
  | nil => rfl
  | cons d ds ih => simpa [List.replicate_succ, unifyOk] using ih

theorem zipWith_ones (b : List Nat) :
    List.zipWith (fun x y => if x = 1 then y else x)
      (List.replicate b.length 1) b = b := by
  induction b with
  | nil => rfl
  | cons d ds ih => simp [List.replicate_succ, ih]

theorem unify_nil_left (b : List Nat) : unify [] b = some b := by
  simp [unify, unifyOk_ones, zipWith_ones]

theorem broadcastMany_cons (b : List Nat) (l : List (List Nat)) :
    broadcastMany (b :: l) = List.foldlM unify b l := by
  simp [broadcastMany, List.foldlM_cons, unify_nil_left]

theorem foldlM_unify_const (s : List Nat) (l : List (List Nat))
    (h : ∀ x ∈ l, x = s) : List.foldlM unify s l = some s := by
  induction l with
  | nil => rfl
  | cons a rest ih =>
    have ha : a = s := h a (by simp)
    subst ha
    rw [List.foldlM_cons, unify_self]
    exact ih fun x hx => h x (by simp [hx])

theorem bshapeLoop_eq (b : List Nat) (rest : List (List Nat)) :
    bshapeLoop b rest = List.foldlM unify b rest := by
  generalize hn : rest.length = n
  induction n using Nat.strong_induction_on generalizing b rest with
  | _ n ih =>
    rw [bshapeLoop]
    split
    · next h =>
      rw [List.isEmpty_iff.mp h]
      rfl
    · next h =>
      rw [broadcastMany_cons]
      have hsplit : List.foldlM unify b rest
          = List.foldlM unify b (rest.take 31 ++ rest.drop 31) := by
        rw [List.take_append_drop]
      rw [hsplit, List.foldlM_append]
      cases hbm : List.foldlM unify b (rest.take 31) with
      | none => rfl
      | some bN =>
        simp only [Option.bind_eq_bind, Option.some_bind]
        have hne : rest ≠ [] := by simpa [List.isEmpty_iff] using h
        have hlt : (rest.drop 31).length < n := by
          subst hn
          simp only [List.length_drop]
          have := List.length_pos.mpr hne
          omega
        exact ih _ hlt bN (rest.drop 31) rfl

theorem bshape_eq_foldl (shapes : List (List Nat)) :
    bshape shapes = List.foldlM unify [] shapes := by
  cases shapes with
  | nil => rfl
  | cons a rest =>
    rw [bshape]
    have htake : (a :: rest).take 32 = a :: rest.take 31 := rfl
    have hdrop : (a :: rest).drop 32 = rest.drop 31 := rfl
    rw [htake, hdrop, broadcastMany_cons]
    rw [List.foldlM_cons, unify_nil_left, Option.bind_eq_bind, Option.some_bind]
    have hsplit : List.foldlM unify a rest
        = List.foldlM unify a (rest.take 31 ++ rest.drop 31) := by
      rw [List.take_append_drop]
    rw [hsplit, List.foldlM_append]
    cases hbm : List.foldlM unify a (rest.take 31) with
    | none => rfl
    | some bN =>
      simp only [Option.bind_eq_bind, Option.some_bind]
      exact bshapeLoop_eq bN (rest.drop 31)

/-! ### C8 -/

/-- C8: when every input already has the unified broadcast shape, the fast
path of `broadcast_arrays` returns the identical input list, constructing
no new views. -/
theorem broadcast_arrays_fast_path (args : List ArrayView) (subok : Bool)
    (s : List Nat) (h : ∀ a ∈ args, a.shape = s) :
    broadcast_arrays args subok = .ok args := by
  cases args with
  | nil => rfl
  | cons a rest =>
    have hshape : bshape ((a :: rest).map (·.shape)) = some s := by
      rw [bshape_eq_foldl]
      have ha : a.shape = s := h a (by simp)
      simp only [List.map_cons, List.foldlM_cons, unify_nil_left,
        Option.bind_eq_bind, Option.some_bind, ha]
      exact foldlM_unify_const s _ (by
        intro x hx
        rcases List.mem_map.mp hx with ⟨b, hb, hbx⟩
        exact hbx ▸ h b (by simp [hb]))
    have hall : (a :: rest).all (fun b => b.shape == s) = true := by
      simp only [List.all_eq_true, beq_iff_eq]
      exact fun b hb => h b hb
    rw [broadcast_arrays, hshape]
    simp [hall]

/-- Witness for C8: a singleton list already at its broadcast shape. -/
theorem broadcast_arrays_fast_path_witness :
    broadcast_arrays [x34] = .ok [x34] :=
  broadcast_arrays_fast_path [x34] false [3, 4] (by
    intro a ha
    rw [List.mem_singleton.mp ha]
    rfl)

/-! ### C6 -/

/-- C6: `sliding_window_view` validates in a fixed order, each failure
raising its distinct error before any view is constructed: a non-integer or
non-flat window shape fails with a shape-shape error (conversion failure
resp. not-one-dimensional); then a length mismatch with the source rank;
then a non-positive window entry; a given step is checked the same way with
mirrored errors; finally a non-positive output extent raises the
window-too-large error. -/
theorem sliding_window_view_validation_order (x : ArrayView) (subok wr : Bool) :
    (∀ stA, sliding_window_view x .nonint stA subok wr
      = .error .shapeNotIntSeq) ∧
    (∀ stA xs xss,
      sliding_window_view x (.nested (xs :: xss)) stA subok wr
        = .error .shapeNotOneDim ∨
      sliding_window_view x (.nested (xs :: xss)) stA subok wr
        = .error .shapeNotIntSeq) ∧
    (∀ stA ws, ws.length ≠ x.shape.length →
      sliding_window_view x (.ints ws) stA subok wr
        = .error .shapeLenMismatch) ∧
    (∀ stA ws, ws.length = x.shape.length → (∃ a ∈ ws, a ≤ 0) →
      sliding_window_view x (.ints ws) stA subok wr
        = .error .shapeNonPositive) ∧
    (∀ ws, ws.length = x.shape.length → (∀ a ∈ ws, 0 < a) →
      sliding_window_view x (.ints ws) (some .nonint) subok wr
        = .error .stepNotIntSeq) ∧
    (∀ ws ys yss, ws.length = x.shape.length → (∀ a ∈ ws, 0 < a) →
      (sliding_window_view x (.ints ws) (some (.nested (ys :: yss))) subok wr
        = .error .stepNotOneDim ∨
       sliding_window_view x (.ints ws) (some (.nested (ys :: yss))) subok wr
        = .error .stepNotIntSeq)) ∧
    (∀ ws st, ws.length = x.shape.length → (∀ a ∈ ws, 0 < a) →
      st.length ≠ x.shape.length →
      sliding_window_view x (.ints ws) (some (.ints st)) subok wr
        = .error .stepLenMismatch) ∧
    (∀ ws st, ws.length = x.shape.length → (∀ a ∈ ws, 0 < a) →
      st.length = x.shape.length → (∃ a ∈ st, a ≤ 0) →
      sliding_window_view x (.ints ws) (some (.ints st)) subok wr
        = .error .stepNonPositive) ∧
    (∀ stA ws st, ws.length = x.shape.length → (∀ a ∈ ws, 0 < a) →
      parseStep x stA = .ok st → (∃ e ∈ outExtents x.shape ws st, e ≤ 0) →
      sliding_window_view x (.ints ws) stA subok wr
        = .error .windowTooLarge) := by
  refine ⟨fun stA => rfl, ?_, ?_, ?_, ?_, ?_, ?_, ?_, ?_⟩
  · intro stA xs xss
    by_cases hrect : xss.all (fun l => l.length == xs.length)
    · left
      simp [sliding_window_view, parseSeq, hrect]
    · right
      simp [sliding_window_view, parseSeq, hrect]
  · intro stA ws hlen
    simp [sliding_window_view, parseSeq, hlen]
  · intro stA ws hlen hex
    have hany : (ws.any fun a => decide (a ≤ 0)) = true := by
      simp only [List.any_eq_true, decide_eq_true_eq]
      exact hex
    simp [sliding_window_view, parseSeq, hlen, hany]
  · intro ws hlen hpos
    have hany : (ws.any fun a => decide (a ≤ 0)) = false := by
      simp only [List.any_eq_false, decide_eq_true_eq, not_le]
      exact hpos
    simp [sliding_window_view, parseSeq, parseStep, hlen, hany]
  · intro ws ys yss hlen hpos
    have hany : (ws.any fun a => decide (a ≤ 0)) = false := by
      simp only [List.any_eq_false, decide_eq_true_eq, not_le]
      exact hpos
    by_cases hrect : yss.all (fun l => l.length == ys.length)
    · left
      simp [sliding_window_view, parseSeq, parseStep, hlen, hany, hrect]
    · right
      simp [sliding_window_view, parseSeq, parseStep, hlen, hany, hrect]
  · intro ws st hlen hpos hst
    have hany : (ws.any fun a => decide (a ≤ 0)) = false := by
      simp only [List.any_eq_false, decide_eq_true_eq, not_le]
      exact hpos
    simp [sliding_window_view, parseSeq, parseStep, hlen, hany, hst]
  · intro ws st hlen hpos hstlen hstex
    have hany : (ws.any fun a => decide (a ≤ 0)) = false := by
      simp only [List.any_eq_false, decide_eq_true_eq, not_le]
      exact hpos
    have hstany : (st.any fun a => decide (a ≤ 0)) = true := by
      simp only [List.any_eq_true, decide_eq_true_eq]
      exact hstex
    simp [sliding_window_view, parseSeq, parseStep, hlen, hany, hstlen, hstany]
  · intro stA ws st hlen hpos hstep hext
    have hany : (ws.any fun a => decide (a ≤ 0)) = false := by
      simp only [List.any_eq_false, decide_eq_true_eq, not_le]
      exact hpos
    have hoany : ((outExtents x.shape ws st).any fun a => decide (a ≤ 0))
        = true := by
      simp only [List.any_eq_true, decide_eq_true_eq]
      exact hext
    simp [sliding_window_view, parseSeq, hlen, hany, hstep, hoany]

/-- Witness for C6: each validation error exercised on `x34`. -/
theorem sliding_window_view_validation_order_witness :
    sliding_window_view x34 .nonint = .error .shapeNotIntSeq ∧
    sliding_window_view x34 (.ints [2]) = .error .shapeLenMismatch ∧
    sliding_window_view x34 (.ints [0, 2]) = .error .shapeNonPositive ∧
    sliding_window_view x34 (.ints [2, 2]) (some (.ints [1, 0]))
      = .error .stepNonPositive ∧
    sliding_window_view x34 (.ints [5, 5]) = .error .windowTooLarge := by
  have h := sliding_window_view_validation_order x34 false false
  exact ⟨h.1 none,
    h.2.2.1 none [2] (by decide),
    h.2.2.2.1 none [0, 2] (by decide) (by decide),
    h.2.2.2.2.2.2.2.1 [2, 2] [1, 0] (by decide) (by decide) (by decide)
      (by decide),
    h.2.2.2.2.2.2.2.2 none [5, 5] [1, 1] (by decide) (by decide) rfl
      (by decide)⟩

/-! ### Flattening and deep-copy lemmas -/

theorem validIdx_length (idx shape : List Nat) (h : validIdx idx shape = true) :
    idx.length = shape.length := by
  induction idx generalizing shape with
  | nil => cases shape with
    | nil => rfl
    | cons d ds => simp [validIdx] at h
  | cons i is ih =>
    cases shape with
    | nil => simp [validIdx] at h
    | cons d ds =>
      simp only [validIdx, Bool.and_eq_true] at h
      simp [ih ds h.2]

theorem dot_cons (i : Nat) (is : List Nat) (s : Int) (ss : List Int) :
    dot (i :: is) (s :: ss) = (i : Int) * s + dot is ss := by
  simp [dot]

theorem dot_contig (idx shape : List Nat) (h : idx.length = shape.length) :
    dot idx (contigStrides shape) = (flattenIdx idx shape : Int) := by
  induction idx generalizing shape with
  | nil =>
    cases shape with
    | nil => rfl
    | cons d ds => simp at h
  | cons i is ih =>
    cases shape with
    | nil => simp at h
    | cons d ds =>
      rw [show contigStrides (d :: ds) = (ds.prod : Int) :: contigStrides ds
          from rfl]
      rw [dot_cons, ih ds (by simpa using h),
        show flattenIdx (i :: is) (d :: ds) = i * ds.prod + flattenIdx is ds
          from rfl]
      push_cast
      ring

theorem flattenIdx_lt_prod (idx shape : List Nat)
    (h : validIdx idx shape = true) : flattenIdx idx shape < shape.prod := by
  induction idx generalizing shape with
  | nil =>
    cases shape with
    | nil => exact Nat.zero_lt_one
    | cons d ds => simp [validIdx] at h
  | cons i is ih =>
    cases shape with
    | nil => simp [validIdx] at h
    | cons d ds =>
      simp only [validIdx, Bool.and_eq_true, decide_eq_true_eq] at h
      have h1 : flattenIdx is ds < ds.prod := ih ds h.2
      have h2 : i * ds.prod + flattenIdx is ds < (i + 1) * ds.prod := by
        rw [Nat.succ_mul]
        omega
      have h3 : (i + 1) * ds.prod ≤ d * ds.prod :=
        Nat.mul_le_mul_right _ h.1
      rw [show flattenIdx (i :: is) (d :: ds) = i * ds.prod + flattenIdx is ds
          from rfl, List.prod_cons]
      exact lt_of_lt_of_le h2 h3

theorem unflatten_flattenIdx (idx shape : List Nat)
    (h : validIdx idx shape = true) :
    unflatten (flattenIdx idx shape) shape = idx := by
  induction idx generalizing shape with
  | nil =>
    cases shape with
    | nil => rfl
    | cons d ds => simp [validIdx] at h
  | cons i is ih =>
    cases shape with
    | nil => simp [validIdx] at h
    | cons d ds =>
      simp only [validIdx, Bool.and_eq_true, decide_eq_true_eq] at h
      have hf : flattenIdx is ds < ds.prod := flattenIdx_lt_prod is ds h.2
      have hP : 0 < ds.prod := lt_of_le_of_lt (Nat.zero_le _) hf
      rw [show flattenIdx (i :: is) (d :: ds) = i * ds.prod + flattenIdx is ds
          from rfl]
      rw [show unflatten (i * ds.prod + flattenIdx is ds) (d :: ds)
          = (i * ds.prod + flattenIdx is ds) / ds.prod
            :: unflatten ((i * ds.prod + flattenIdx is ds) % ds.prod) ds
          from rfl]
      rw [show (i * ds.prod + flattenIdx is ds) / ds.prod = i by
        rw [Nat.mul_comm, Nat.mul_add_div hP, Nat.div_eq_of_lt hf,
          Nat.add_zero]]
      rw [show (i * ds.prod + flattenIdx is ds) % ds.prod = flattenIdx is ds by
        rw [Nat.mul_comm, Nat.mul_add_mod, Nat.mod_eq_of_lt hf]]
      rw [ih ds h.2]

theorem read_copy (a : ArrayView) (idx : List Nat)
    (h : validIdx idx a.shape = true) : read (copy a) idx = read a idx := by
  show read a (unflatten (0 + dot idx (contigStrides a.shape)).toNat a.shape)
    = read a idx
  rw [zero_add, dot_contig idx a.shape (validIdx_length idx a.shape h),
    Int.toNat_natCast, unflatten_flattenIdx idx a.shape h]

/-- Success characterization of `sliding_window_view`: the call succeeds
exactly when the window shape parses flat, matches the source rank with
positive entries, the step likewise, and every output extent is positive;
the result is the strided view, deep-copied when `writeable`. -/
theorem sliding_window_view_ok_iff (x : ArrayView) (shapeArg : SeqArg)
    (stepArg : Option SeqArg) (subok wr : Bool) (v : ArrayView) :
    sliding_window_view x shapeArg stepArg subok wr = .ok v ↔
    ∃ ws st, parseSeq .shapeNotIntSeq .shapeNotOneDim shapeArg = .ok ws ∧
      ws.length = x.shape.length ∧
      (ws.any fun a => decide (a ≤ 0)) = false ∧
      parseStep x stepArg = .ok st ∧
      ((outExtents x.shape ws st).any fun a => decide (a ≤ 0)) = false ∧
      v = (if wr then
            copy (as_strided x
              (some ((outExtents x.shape ws st).map Int.toNat
                ++ ws.map Int.toNat))
              (some (List.zipWith (· * ·) x.strides st ++ x.strides)) subok wr)
           else
            as_strided x
              (some ((outExtents x.shape ws st).map Int.toNat
                ++ ws.map Int.toNat))
              (some (List.zipWith (· * ·) x.strides st ++ x.strides))
              subok wr) := by
  constructor
  · intro h
    rw [sliding_window_view] at h
    split at h
    · cases h
    · next ws heq =>
      split at h
      · cases h
      · next hlen =>
        split at h
        · cases h
        · next hany =>
          split at h
          · cases h
          · next st heq2 =>
            dsimp only at h
            split at h
            · cases h
            · next hoany =>
              refine ⟨ws, st, heq, not_not.mp hlen,
                Bool.not_eq_true _ ▸ hany, heq2,
                Bool.not_eq_true _ ▸ hoany, ?_⟩
              split at h <;> cases h <;> simp_all
  · rintro ⟨ws, st, hps, hlen, hany, hst, hoany, hv⟩
    rw [sliding_window_view]
    split
    · next e heq =>
      rw [hps] at heq
      cases heq
    · next ws2 heq =>
      rw [hps] at heq
      injection heq with h2
      subst h2
      rw [if_neg (by simp [hlen]), if_neg (by simp [hany])]
      split
      · next e heq2 =>
        rw [hst] at heq2
        cases heq2
      · next st2 heq2 =>
        rw [hst] at heq2
        injection heq2 with h3
        subst h3
        dsimp only
        rw [if_neg (by simp [hoany]), hv]
        cases wr <;> simp

/-! ### C5 -/

/-- C5: on any successful call, `sliding_window_view` with
`writeable = false` returns a read-only view sharing the source's storage,
while `writeable = true` returns a writable deep copy that does not alias
the source's storage and holds the same logical content as the view. -/
theorem sliding_window_view_writeable_policy (x : ArrayView)
    (shapeArg : SeqArg) (stepArg : Option SeqArg) (subok : Bool) :
    (∀ v, sliding_window_view x shapeArg stepArg subok false = .ok v →
      v.storageId = x.storageId ∧ v.data = x.data ∧ v.offset = x.offset ∧
      v.writeable = false) ∧
    (∀ w, sliding_window_view x shapeArg stepArg subok true = .ok w →
      w.storageId ≠ x.storageId ∧ w.writeable = true) ∧
    (∀ v w, sliding_window_view x shapeArg stepArg subok false = .ok v →
      sliding_window_view x shapeArg stepArg subok true = .ok w →
      w.shape = v.shape ∧
      ∀ idx, validIdx idx v.shape = true → read w idx = read v idx) := by
  refine ⟨?_, ?_, ?_⟩
  · intro v h
    rcases (sliding_window_view_ok_iff x shapeArg stepArg subok false v).mp h
      with ⟨ws, st, _, _, _, _, _, hv⟩
    rw [if_neg (by simp)] at hv
    subst hv
    exact ⟨rfl, rfl, rfl, Bool.and_false _⟩
  · intro w h
    rcases (sliding_window_view_ok_iff x shapeArg stepArg subok true w).mp h
      with ⟨ws, st, _, _, _, _, _, hw⟩
    rw [if_pos rfl] at hw
    subst hw
    exact ⟨Nat.succ_ne_self _, rfl⟩
  · intro v w hv hw
    rcases (sliding_window_view_ok_iff x shapeArg stepArg subok false v).mp hv
      with ⟨ws, st, hps, _, _, hst, _, hveq⟩
    rcases (sliding_window_view_ok_iff x shapeArg stepArg subok true w).mp hw
      with ⟨ws', st', hps', _, _, hst', _, hweq⟩
    have hws : ws' = ws := by
      rw [hps] at hps'
      cases hps'
      rfl
    have hsts : st' = st := by
      rw [hst] at hst'
      cases hst'
      rfl
    subst hws hsts
    rw [if_neg (by simp)] at hveq
    rw [if_pos rfl] at hweq
    subst hveq hweq
    constructor
    · rfl
    · intro idx hidx
      exact read_copy _ idx hidx

/-- The read-only sliding-window view of `x34` with window `(2,2)`. -/
def swv34v : ArrayView :=
  as_strided x34 (some [2, 3, 2, 2]) (some [4, 1, 4, 1]) false false

/-- The deep copy returned for `writeable = true` on the same call. -/
def swv34w : ArrayView :=
  copy (as_strided x34 (some [2, 3, 2, 2]) (some [4, 1, 4, 1]) false true)

/-- Witness for C5 at `x34` with window `(2,2)`. -/
theorem sliding_window_view_writeable_policy_witness :
    sliding_window_view x34 (.ints [2, 2]) none false false = .ok swv34v ∧
    sliding_window_view x34 (.ints [2, 2]) none false true = .ok swv34w ∧
    swv34v.storageId = x34.storageId ∧ swv34v.writeable = false ∧
    swv34w.storageId ≠ x34.storageId ∧ swv34w.writeable = true ∧
    read swv34w [1, 2, 1, 1] = read swv34v [1, 2, 1, 1] := by
  have h := sliding_window_view_writeable_policy x34 (.ints [2, 2]) none false
  exact ⟨rfl, rfl, (h.1 swv34v rfl).1, (h.1 swv34v rfl).2.2.2,
    (h.2.1 swv34w rfl).1, (h.2.1 swv34w rfl).2,
    (h.2.2 swv34v swv34w rfl rfl).2 [1, 2, 1, 1] (by decide)⟩

/-! ### C1 -/

/-- C1: for any input array, flat positive window shape matching the source
rank, and positive step of the same length (a missing step defaulting to
all-ones) with all output extents `(d - w) // s + 1` positive,
`sliding_window_view` returns a view whose shape is the output extents
followed by the window shape and whose strides are the stepped source
strides followed by the source strides unmodified; in particular on the
3×4 array of values `10*i+j` with window `(2,2)` the view has shape
`(2,3,2,2)` with `view[0,0] = [[0,1],[10,11]]` and
`view[1,2] = [[12,13],[22,23]]`. -/
theorem sliding_window_view_shape_strides :
    (∀ (x : ArrayView) (ws st : List Int) (subok : Bool),
      ws.length = x.shape.length → st.length = x.shape.length →
      (∀ a ∈ ws, 0 < a) → (∀ a ∈ st, 0 < a) →
      (∀ e ∈ outExtents x.shape ws st, 0 < e) →
      ∃ v, sliding_window_view x (.ints ws) (some (.ints st)) subok false
            = .ok v ∧
        v.shape = (outExtents x.shape ws st).map Int.toNat
            ++ ws.map Int.toNat ∧
        v.strides = List.zipWith (· * ·) x.strides st ++ x.strides) ∧
    (∀ (x : ArrayView) (wsArg : SeqArg) (subok wr : Bool),
      sliding_window_view x wsArg none subok wr
        = sliding_window_view x wsArg
            (some (.ints (List.replicate x.shape.length 1))) subok wr) ∧
    (sliding_window_view x34 (.ints [2, 2])).toOption.map (·.shape)
      = some [2, 3, 2, 2] ∧
    (sliding_window_view x34 (.ints [2, 2])).toOption.map
      (fun v => [read v [0, 0, 0, 0], read v [0, 0, 0, 1],
                 read v [0, 0, 1, 0], read v [0, 0, 1, 1]])
      = some [0, 1, 10, 11] ∧
    (sliding_window_view x34 (.ints [2, 2])).toOption.map
      (fun v => [read v [1, 2, 0, 0], read v [1, 2, 0, 1],
                 read v [1, 2, 1, 0], read v [1, 2, 1, 1]])
      = some [12, 13, 22, 23] := by
  refine ⟨?_, ?_, by decide, by decide, by decide⟩
  · intro x ws st subok hlen hstlen hpos hstpos hext
    have hany : (ws.any fun a => decide (a ≤ 0)) = false := by
      simp only [List.any_eq_false, decide_eq_true_eq, not_le]
      exact hpos
    have hstany : (st.any fun a => decide (a ≤ 0)) = false := by
      simp only [List.any_eq_false, decide_eq_true_eq, not_le]
      exact hstpos
    have hoany : ((outExtents x.shape ws st).any fun a => decide (a ≤ 0))
        = false := by
      simp only [List.any_eq_false, decide_eq_true_eq, not_le]
      exact hext
    have hstep : parseStep x (some (.ints st)) = .ok st := by
      simp [parseStep, parseSeq, hstlen, hstany]
    refine ⟨as_strided x
        (some ((outExtents x.shape ws st).map Int.toNat ++ ws.map Int.toNat))
        (some (List.zipWith (· * ·) x.strides st ++ x.strides)) subok false,
      (sliding_window_view_ok_iff x (.ints ws) (some (.ints st)) subok false
        _).mpr ⟨ws, st, rfl, hlen, hany, hstep, hoany, by simp⟩, rfl, rfl⟩
  · intro x wsArg subok wr
    have hrep : ((List.replicate x.shape.length (1 : Int)).any
        fun a => decide (a ≤ 0)) = false := by
      cases hn : x.shape.length with
      | zero => rfl
      | succ n => simp
    have hstep : parseStep x (some (.ints (List.replicate x.shape.length 1)))
        = parseStep x none := by
      simp [parseStep, parseSeq, hrep]
    simp only [sliding_window_view, hstep]

/-- Witness for C1: the general clause applied at `x34`, window `(2,2)`,
step `(1,1)`. -/
theorem sliding_window_view_shape_strides_witness :
    sliding_window_view x34 (.ints [2, 2]) (some (.ints [1, 1])) false false
      = .ok swv34v ∧
    swv34v.shape = [2, 3, 2, 2] ∧ swv34v.strides = [4, 1, 4, 1] := by
  obtain ⟨v, hok, hsh, hstr⟩ :=
    sliding_window_view_shape_strides.1 x34 [2, 2] [1, 1] false
      (by decide) (by decide) (by decide) (by decide) (by decide)
  have h2 : sliding_window_view x34 (.ints [2, 2]) (some (.ints [1, 1]))
      false false = .ok swv34v := rfl
  have hv : swv34v = v := Except.ok.inj (h2.symm.trans hok)
  subst hv
  refine ⟨hok, ?_, ?_⟩
  · rw [hsh]
    decide
  · rw [hstr]
    decide

/-! ### Broadcast-stride arithmetic lemmas -/

/-- The source index a broadcast multi-index maps to: drop the padded
leading axes, send indices along size-1 source axes to 0. -/
def srcIndex (srcShape idx : List Nat) : List Nat :=
  List.zipWith (fun d i => if d = 1 then 0 else i) srcShape
    (idx.drop (idx.length - srcShape.length))

theorem dot_append (l₁ l₂ : List Nat) (s₁ s₂ : List Int)
    (h : l₁.length = s₁.length) :
    dot (l₁ ++ l₂) (s₁ ++ s₂) = dot l₁ s₁ + dot l₂ s₂ := by
  unfold dot
  rw [List.zipWith_append _ _ _ _ _ h, List.sum_append]

theorem dot_replicate_zero (l : List Nat) (k : Nat) :
    dot l (List.replicate k 0) = 0 := by
  induction l generalizing k with
  | nil => simp [dot]
  | cons i is ih =>
    cases k with
    | zero => simp [dot]
    | succ k =>
      rw [List.replicate_succ, dot_cons, ih k]
      simp

theorem dot_bStrides3 (sh : List Nat) (st : List Int) (t idx : List Nat)
    (hst : st.length = sh.length) (ht : t.length = sh.length)
    (hcompat : compatPair sh t = true) (hvalid : validIdx idx t = true) :
    dot idx (bStrides3 sh st t)
      = dot (List.zipWith (fun d i => if d = 1 then 0 else i) sh idx) st := by
  induction sh generalizing st t idx with
  | nil =>
    cases st with
    | cons _ _ => simp at hst
    | nil =>
      cases t with
      | cons _ _ => simp at ht
      | nil =>
        cases idx with
        | nil => rfl
        | cons _ _ => simp [validIdx] at hvalid
  | cons d ds ih =>
    cases st with
    | nil => simp at hst
    | cons s ss =>
      cases t with
      | nil => simp at ht
      | cons tv ts =>
        cases idx with
        | nil => simp [validIdx] at hvalid
        | cons i is =>
          simp only [compatPair, Bool.and_eq_true, Bool.or_eq_true,
            beq_iff_eq] at hcompat
          simp only [validIdx, Bool.and_eq_true, decide_eq_true_eq] at hvalid
          rw [show bStrides3 (d :: ds) (s :: ss) (tv :: ts)
              = (if d == 1 && decide (1 < tv) then 0 else s)
                :: bStrides3 ds ss ts from rfl]
          rw [dot_cons]
          rw [show List.zipWith (fun d i => if d = 1 then 0 else i)
                (d :: ds) (i :: is)
              = (if d = 1 then 0 else i)
                :: List.zipWith (fun d i => if d = 1 then 0 else i) ds is
              from rfl]
          rw [dot_cons]
          rw [ih ss ts is (by simpa using hst) (by simpa using ht)
            hcompat.2 hvalid.2]
          congr 1
          by_cases hd : d = 1
          · subst hd
            by_cases htv : 1 < tv
            · simp [htv]
            · have hi : i = 0 := by omega
              simp [htv, hi]
          · have hdt : d = tv := hcompat.1.resolve_left hd
            simp [hd]

theorem compatible_length (src t : List Nat) (h : compatible src t = true) :
    src.length ≤ t.length := by
  simp only [compatible, Bool.and_eq_true, decide_eq_true_eq] at h
  exact h.1

theorem compatible_pair (src t : List Nat) (h : compatible src t = true) :
    compatPair (List.replicate (t.length - src.length) 1 ++ src) t = true := by
  simp only [compatible, Bool.and_eq_true, decide_eq_true_eq] at h
  exact h.2

theorem dot_broadcastStrides (shape : List Nat) (strides : List Int)
    (t idx : List Nat) (hlen : strides.length = shape.length)
    (hcompat : compatible shape t = true)
    (hvalid : validIdx idx t = true) :
    dot idx (broadcastStrides shape strides t)
      = dot (srcIndex shape idx) strides := by
  have hle : shape.length ≤ t.length := compatible_length shape t hcompat
  have hcp := compatible_pair shape t hcompat
  have hidxlen : idx.length = t.length := validIdx_length _ _ hvalid
  have hA := dot_bStrides3 (List.replicate (t.length - shape.length) 1 ++ shape)
    (List.replicate (t.length - shape.length) 0 ++ strides) t idx
    (by simp [hlen]) (by simp; omega) hcp hvalid
  rw [broadcastStrides, hA]
  have hk : t.length - shape.length ≤ idx.length := by omega
  conv_lhs =>
    rw [show idx = idx.take (t.length - shape.length)
        ++ idx.drop (t.length - shape.length)
      from (List.take_append_drop _ idx).symm]
  rw [List.zipWith_append _ _ _ _ _
    (by rw [List.length_replicate, List.length_take]; omega)]
  rw [dot_append _ _ _ _
    (by simp [List.length_zipWith, List.length_take]; omega)]
  rw [dot_replicate_zero, zero_add, srcIndex, hidxlen]

theorem bStrides3_length (sh : List Nat) (st : List Int) (t : List Nat)
    (hst : st.length = sh.length) (ht : t.length = sh.length) :
    (bStrides3 sh st t).length = sh.length := by
  induction sh generalizing st t with
  | nil => cases st with
    | cons _ _ => simp at hst
    | nil => cases t with
      | cons _ _ => simp at ht
      | nil => rfl
  | cons d ds ih =>
    cases st with
    | nil => simp at hst
    | cons s ss =>
      cases t with
      | nil => simp at ht
      | cons tv ts =>
        rw [show bStrides3 (d :: ds) (s :: ss) (tv :: ts)
            = (if d == 1 && decide (1 < tv) then 0 else s)
              :: bStrides3 ds ss ts from rfl]
        simp [ih ss ts (by simpa using hst) (by simpa using ht)]

theorem bStrides3_getD (sh : List Nat) (st : List Int) (t : List Nat) (j : Nat)
    (hst : st.length = sh.length) (ht : t.length = sh.length)
    (hj : j < sh.length) :
    (bStrides3 sh st t).getD j 0
      = if sh.getD j 0 = 1 ∧ 1 < t.getD j 0 then 0 else st.getD j 0 := by
  induction sh generalizing st t j with
  | nil => exact absurd hj (Nat.not_lt_zero j)
  | cons d ds ih =>
    cases st with
    | nil => simp at hst
    | cons s ss =>
      cases t with
      | nil => simp at ht
      | cons tv ts =>
        cases j with
        | zero =>
          rw [show bStrides3 (d :: ds) (s :: ss) (tv :: ts)
              = (if d == 1 && decide (1 < tv) then 0 else s)
                :: bStrides3 ds ss ts from rfl]
          simp only [List.getD_cons_zero]
          by_cases hd : d = 1 <;> by_cases htv : 1 < tv <;> simp [hd, htv]
        | succ j =>
          rw [show bStrides3 (d :: ds) (s :: ss) (tv :: ts)
              = (if d == 1 && decide (1 < tv) then 0 else s)
                :: bStrides3 ds ss ts from rfl]
          simp only [List.getD_cons_succ]
          exact ih ss ts j (by simpa using hst) (by simpa using ht)
            (by simpa using hj)

/-! ### C2 -/

/-- C2: for every array and right-aligned-compatible target shape,
`broadcast_to` succeeds with a view whose shape is exactly the target,
whose element at each valid multi-index equals the source element at the
index obtained by dropping the padded leading axes and zeroing indices
along size-1 source axes, whose padded leading axes have stride 0, and
whose aligned axes have stride 0 when stretched from size 1 and the source
stride otherwise. -/
theorem broadcast_to_spec (a : ArrayView) (t : List Nat) (subok : Bool)
    (hlen : a.strides.length = a.shape.length)
    (hcompat : compatible a.shape t = true) :
    ∃ v, broadcast_to a (t.map (fun d : Nat => (d : Int))) subok = .ok v ∧
      v.shape = t ∧
      (∀ idx, validIdx idx t = true →
        read v idx = read a (srcIndex a.shape idx)) ∧
      v.strides.length = t.length ∧
      (∀ j, j < t.length - a.shape.length → v.strides.getD j 0 = 0) ∧
      (∀ j, j < a.shape.length →
        v.strides.getD (t.length - a.shape.length + j) 0
          = if a.shape.getD j 0 = 1
              ∧ 1 < t.getD (t.length - a.shape.length + j) 0
            then 0 else a.strides.getD j 0) := by
  have hle : a.shape.length ≤ t.length := compatible_length _ _ hcompat
  have htN : (t.map (fun d : Nat => (d : Int))).map Int.toNat = t := by
    rw [List.map_map]
    simp [Function.comp_def]
  have hguard : ((t.map (fun d : Nat => (d : Int))).isEmpty
      && !a.shape.isEmpty) = false := by
    cases t with
    | nil =>
      have hsh0 : a.shape = [] :=
        List.length_eq_zero.mp (Nat.le_zero.mp hle)
      rw [hsh0]
      rfl
    | cons _ _ => rfl
  have hneg : ((t.map (fun d : Nat => (d : Int))).any
      fun s => decide (s < 0)) = false := by
    simp only [List.any_eq_false, decide_eq_true_eq]
    intro s hs
    rcases List.mem_map.mp hs with ⟨d, _, rfl⟩
    exact not_lt.mpr (Int.natCast_nonneg d)
  refine ⟨{ a with
      shape := t
      strides := broadcastStrides a.shape a.strides t
      writeable := false }, ?_, rfl, ?_, ?_, ?_, ?_⟩
  · rw [broadcast_to, broadcastToImpl]
    rw [if_neg (by simp [hguard]), if_neg (by simp [hneg])]
    rw [htN, if_pos hcompat]
    rfl
  · intro idx hidx
    show a.data (a.offset + dot idx (broadcastStrides a.shape a.strides t))
      = read a (srcIndex a.shape idx)
    rw [dot_broadcastStrides a.shape a.strides t idx hlen hcompat hidx]
    rfl
  · show (broadcastStrides a.shape a.strides t).length = t.length
    rw [broadcastStrides]
    rw [bStrides3_length _ _ _ (by simp [hlen]) (by simp; omega)]
    simp
    omega
  · intro j hj
    show (broadcastStrides a.shape a.strides t).getD j 0 = 0
    rw [broadcastStrides]
    rw [bStrides3_getD _ _ _ j (by simp [hlen]) (by simp; omega)
      (by simp; omega)]
    have h1 : (List.replicate (t.length - a.shape.length) 1
        ++ a.shape).getD j 0 = 1 := by
      simp only [List.getD_eq_getElem?_getD]
      rw [List.getElem?_append_left (by simp; omega),
        List.getElem?_replicate_of_lt (by simpa using hj)]
      rfl
    have h0 : (List.replicate (t.length - a.shape.length) (0 : Int)
        ++ a.strides).getD j 0 = 0 := by
      simp only [List.getD_eq_getElem?_getD]
      rw [List.getElem?_append_left (by simp; omega),
        List.getElem?_replicate_of_lt (by simpa using hj)]
      rfl
    rw [h1, h0]
    split <;> rfl
  · intro j hj
    show (broadcastStrides a.shape a.strides t).getD
      (t.length - a.shape.length + j) 0 = _
    rw [broadcastStrides]
    rw [bStrides3_getD _ _ _ (t.length - a.shape.length + j)
      (by simp [hlen]) (by simp; omega) (by simp; omega)]
    have h1 : (List.replicate (t.length - a.shape.length) 1
        ++ a.shape).getD (t.length - a.shape.length + j) 0
        = a.shape.getD j 0 := by
      simp only [List.getD_eq_getElem?_getD]
      rw [List.getElem?_append_right (by simp)]
      simp
    have h0 : (List.replicate (t.length - a.shape.length) (0 : Int)
        ++ a.strides).getD (t.length - a.shape.length + j) 0
        = a.strides.getD j 0 := by
      simp only [List.getD_eq_getElem?_getD]
      rw [List.getElem?_append_right (by simp)]
      simp
    rw [h1, h0]

/-- A 1×4 source used to witness broadcasting with an axis stretch. -/
def x14 : ArrayView :=
  { shape := [1, 4], strides := [4, 1], offset := 0
    data := fun k => 10 * (k / 4) + k % 4
    storageId := 9, writeable := true, dtype := .base 3 }

/-- The value `broadcast_to x14 [3, 4]` computes to. -/
def bt14 : ArrayView :=
  { x14 with shape := [3, 4], strides := [0, 1], writeable := false }

/-- Witness for C2: `x14` (shape `(1,4)`) broadcast to `(3,4)`, checking
shape, the element mapping at `idx = (2,3)`, and the strides. -/
theorem broadcast_to_spec_witness :
    broadcast_to x14 ([3, 4].map (fun d : Nat => (d : Int))) = .ok bt14 ∧
    bt14.shape = [3, 4] ∧
    read bt14 [2, 3] = read x14 (srcIndex x14.shape [2, 3]) ∧
    bt14.strides.getD 0 0 = 0 ∧
    bt14.strides.getD 1 0 = x14.strides.getD 1 0 := by
  obtain ⟨v, hok, hsh, hread, hslen, hpad, hal⟩ :=
    broadcast_to_spec x14 [3, 4] false rfl (by decide)
  have h2 : broadcast_to x14 ([3, 4].map (fun d : Nat => (d : Int)))
      = .ok bt14 := rfl
  have hv : bt14 = v := Except.ok.inj (h2.symm.trans hok)
  subst hv
  exact ⟨h2, hsh, hread [2, 3] (by decide),
    by simpa using hal 0 (by decide),
    by simpa using hal 1 (by decide)⟩

/-! ### Compatibility lemmas for multi-array broadcasting -/

theorem compatPair_refl (s : List Nat) : compatPair s s = true := by
  induction s with
  | nil => rfl
  | cons d ds ih => simp [compatPair, ih]

theorem compatible_refl (s : List Nat) : compatible s s = true := by
  simp [compatible, compatPair_refl]

theorem compatPair_replicate_one (l : List Nat) :
    compatPair (List.replicate l.length 1) l = true := by
  induction l with
  | nil => rfl
  | cons d ds ih => simpa [List.replicate_succ, compatPair] using ih

theorem compatPair_append (a₁ a₂ b₁ b₂ : List Nat)
    (h : a₁.length = b₁.length) :
    compatPair (a₁ ++ a₂) (b₁ ++ b₂)
      = (compatPair a₁ b₁ && compatPair a₂ b₂) := by
  induction a₁ generalizing b₁ with
  | nil =>
    cases b₁ with
    | nil => simp [compatPair]
    | cons _ _ => simp at h
  | cons x xs ih =>
    cases b₁ with
    | nil => simp at h
    | cons y ys =>
      simp only [List.cons_append]
      rw [show compatPair (x :: (xs ++ a₂)) (y :: (ys ++ b₂))
          = ((x == 1 || x == y) && compatPair (xs ++ a₂) (ys ++ b₂))
          from rfl]
      rw [show compatPair (x :: xs) (y :: ys)
          = ((x == 1 || x == y) && compatPair xs ys) from rfl]
      rw [ih ys (by simpa using h), Bool.and_assoc]

theorem compatPair_trans (p c d : List Nat) (h₁ : compatPair p c = true)
    (h₂ : compatPair c d = true) : compatPair p d = true := by
  induction p generalizing c d with
  | nil =>
    cases c with
    | cons _ _ => simp [compatPair] at h₁
    | nil =>
      cases d with
      | nil => rfl
      | cons _ _ => simp [compatPair] at h₂
  | cons x xs ih =>
    cases c with
    | nil => simp [compatPair] at h₁
    | cons y ys =>
      cases d with
      | nil => simp [compatPair] at h₂
      | cons z zs =>
        simp only [compatPair, Bool.and_eq_true, Bool.or_eq_true,
          beq_iff_eq] at h₁ h₂ ⊢
        refine ⟨?_, ih ys zs h₁.2 h₂.2⟩
        rcases h₁.1 with hx1 | hxy
        · exact Or.inl hx1
        · rcases h₂.1 with hy1 | hyz
          · exact Or.inl (hxy.trans hy1)
          · exact Or.inr (hxy.trans hyz)

theorem compatPair_length (p c : List Nat) (h : compatPair p c = true) :
    p.length = c.length := by
  induction p generalizing c with
  | nil =>
    cases c with
    | nil => rfl
    | cons _ _ => simp [compatPair] at h
  | cons x xs ih =>
    cases c with
    | nil => simp [compatPair] at h
    | cons y ys =>
      simp only [compatPair, Bool.and_eq_true] at h
      simp [ih ys h.2]

theorem compatible_trans (x c e : List Nat) (h₁ : compatible x c = true)
    (h₂ : compatible c e = true) : compatible x e = true := by
  have hxc : x.length ≤ c.length := compatible_length _ _ h₁
  have hce : c.length ≤ e.length := compatible_length _ _ h₂
  have hp := compatible_pair _ _ h₁
  have hq := compatible_pair _ _ h₂
  have hrep : List.replicate (e.length - x.length) (1 : Nat)
      = List.replicate (e.length - c.length) 1
        ++ List.replicate (c.length - x.length) 1 := by
    rw [← List.replicate_add]
    congr 1
    omega
  have hesplit : e = e.take (e.length - c.length)
      ++ e.drop (e.length - c.length) := (List.take_append_drop _ e).symm
  have htlen : (e.take (e.length - c.length)).length
      = e.length - c.length := by
    rw [List.length_take]
    omega
  have hq2 : compatPair (List.replicate (e.length - c.length) 1 ++ c)
      (e.take (e.length - c.length) ++ e.drop (e.length - c.length))
      = true := by
    rw [← hesplit]
    exact hq
  rw [compatPair_append _ _ _ _ (by simp [htlen]), Bool.and_eq_true] at hq2
  simp only [compatible, Bool.and_eq_true, decide_eq_true_eq]
  refine ⟨le_trans hxc hce, ?_⟩
  rw [hrep, List.append_assoc]
  have hone := compatPair_replicate_one (e.take (e.length - c.length))
  rw [htlen] at hone
  have hgoal : compatPair
      (List.replicate (e.length - c.length) 1
        ++ (List.replicate (c.length - x.length) 1 ++ x))
      (e.take (e.length - c.length) ++ e.drop (e.length - c.length))
      = true := by
    rw [compatPair_append _ _ _ _
      (by rw [List.length_replicate, List.length_take]; omega)]
    rw [Bool.and_eq_true]
    exact ⟨hone, compatPair_trans _ _ _ hp hq2.2⟩
  rw [List.take_append_drop] at hgoal
  exact hgoal

theorem unifyOk_zip_compat (pa pb : List Nat) (h : unifyOk pa pb = true) :
    compatPair pa (List.zipWith (fun x y => if x = 1 then y else x) pa pb)
      = true ∧
    compatPair pb (List.zipWith (fun x y => if x = 1 then y else x) pa pb)
      = true := by
  induction pa generalizing pb with
  | nil =>
    cases pb with
    | nil => exact ⟨rfl, rfl⟩
    | cons _ _ => simp [unifyOk] at h
  | cons x xs ih =>
    cases pb with
    | nil => simp [unifyOk] at h
    | cons y ys =>
      simp only [unifyOk, Bool.and_eq_true, Bool.or_eq_true,
        beq_iff_eq] at h
      obtain ⟨ihx, ihy⟩ := ih ys h.2
      rw [show List.zipWith (fun x y => if x = 1 then y else x)
          (x :: xs) (y :: ys)
          = (if x = 1 then y else x)
            :: List.zipWith (fun x y => if x = 1 then y else x) xs ys
          from rfl]
      constructor
      · simp only [compatPair, Bool.and_eq_true, Bool.or_eq_true, beq_iff_eq]
        refine ⟨?_, ihx⟩
        by_cases hx : x = 1
        · exact Or.inl hx
        · simp [hx]
      · simp only [compatPair, Bool.and_eq_true, Bool.or_eq_true, beq_iff_eq]
        refine ⟨?_, ihy⟩
        by_cases hy : y = 1
        · exact Or.inl hy
        · by_cases hx : x = 1
          · simp [hx]
          · rcases h.1 with h1 | h1
            · rcases h1 with h1 | h1
              · exact absurd h1 hx
              · exact absurd h1 hy
            · simp [hx, h1]

theorem unifyOk_length (pa pb : List Nat) (h : unifyOk pa pb = true) :
    pa.length = pb.length := by
  induction pa generalizing pb with
  | nil =>
    cases pb with
    | nil => rfl
    | cons _ _ => simp [unifyOk] at h
  | cons x xs ih =>
    cases pb with
    | nil => simp [unifyOk] at h
    | cons y ys =>
      simp only [unifyOk, Bool.and_eq_true] at h
      simp [ih ys h.2]

theorem unify_compat (a b c : List Nat) (h : unify a b = some c) :
    compatible a c = true ∧ compatible b c = true := by
  rw [unify] at h
  split at h
  · next hok =>
    injection h with hc
    have hpa : (List.replicate (max a.length b.length - a.length) 1
        ++ a).length = max a.length b.length := by
      rw [List.length_append, List.length_replicate]
      omega
    have hpb : (List.replicate (max a.length b.length - b.length) 1
        ++ b).length = max a.length b.length := by
      rw [List.length_append, List.length_replicate]
      omega
    have hclen : c.length = max a.length b.length := by
      rw [← hc, List.length_zipWith, hpa, hpb, Nat.min_self]
    obtain ⟨h1, h2⟩ := unifyOk_zip_compat _ _ hok
    constructor
    · simp only [compatible, Bool.and_eq_true, decide_eq_true_eq]
      refine ⟨by omega, ?_⟩
      rw [hclen, ← hc]
      exact h1
    · simp only [compatible, Bool.and_eq_true, decide_eq_true_eq]
      refine ⟨by omega, ?_⟩
      rw [hclen, ← hc]
      exact h2
  · cases h

theorem foldlM_unify_compat (l : List (List Nat)) (acc s : List Nat)
    (h : List.foldlM unify acc l = some s) :
    compatible acc s = true ∧ ∀ x ∈ l, compatible x s = true := by
  induction l generalizing acc with
  | nil =>
    have hs : acc = s := by
      simpa using h
    subst hs
    exact ⟨compatible_refl _, by simp⟩
  | cons b rest ih =>
    rw [List.foldlM_cons] at h
    cases hu : unify acc b with
    | none => rw [hu] at h; cases h
    | some m =>
      rw [hu, Option.bind_eq_bind, Option.some_bind] at h
      obtain ⟨hm, hrest⟩ := ih m h
      obtain ⟨ham, hbm⟩ := unify_compat acc b m hu
      refine ⟨compatible_trans _ _ _ ham hm, ?_⟩
      intro x hx
      rcases List.mem_cons.mp hx with hx | hx
      · exact hx ▸ compatible_trans _ _ _ hbm hm
      · exact hrest x hx

theorem unifyOk_of_compatPair (p q d : List Nat)
    (h₁ : compatPair p d = true) (h₂ : compatPair q d = true) :
    unifyOk p q = true := by
  induction p generalizing q d with
  | nil =>
    cases d with
    | cons _ _ => simp [compatPair] at h₁
    | nil =>
      cases q with
      | nil => rfl
      | cons _ _ => simp [compatPair] at h₂
  | cons x xs ih =>
    cases d with
    | nil => simp [compatPair] at h₁
    | cons z zs =>
      cases q with
      | nil => simp [compatPair] at h₂
      | cons y ys =>
        simp only [compatPair, Bool.and_eq_true, Bool.or_eq_true,
          beq_iff_eq] at h₁ h₂
        simp only [unifyOk, Bool.and_eq_true, Bool.or_eq_true, beq_iff_eq]
        refine ⟨?_, ih ys zs h₁.2 h₂.2⟩
        rcases h₁.1 with hx | hx
        · exact Or.inl (Or.inl hx)
        · rcases h₂.1 with hy | hy
          · exact Or.inl (Or.inr hy)
          · exact Or.inr (hx.trans hy.symm)

theorem unify_ne_none_of_compat (a b s : List Nat)
    (ha : compatible a s = true) (hb : compatible b s = true) :
    unify a b ≠ none := by
  have hal : a.length ≤ s.length := compatible_length _ _ ha
  have hbl : b.length ≤ s.length := compatible_length _ _ hb
  have hpa := compatible_pair _ _ ha
  have hpb := compatible_pair _ _ hb
  have hmax : max a.length b.length ≤ s.length := max_le hal hbl
  have hsplit : ∀ (x : List Nat), x.length ≤ s.length →
      x.length ≤ max a.length b.length →
      compatPair (List.replicate (s.length - x.length) 1 ++ x) s = true →
      compatPair (List.replicate (max a.length b.length - x.length) 1 ++ x)
        (s.drop (s.length - max a.length b.length)) = true := by
    intro x hxl hxm hx
    have harith : s.length - x.length
        = (s.length - max a.length b.length)
          + (max a.length b.length - x.length) := by omega
    rw [harith, List.replicate_add, List.append_assoc] at hx
    have h2 : compatPair
        (List.replicate (s.length - max a.length b.length) 1
          ++ (List.replicate (max a.length b.length - x.length) 1 ++ x))
        (s.take (s.length - max a.length b.length)
          ++ s.drop (s.length - max a.length b.length)) = true := by
      rw [List.take_append_drop]
      exact hx
    rw [compatPair_append _ _ _ _
      (by rw [List.length_replicate, List.length_take]; omega),
      Bool.and_eq_true] at h2
    exact h2.2
  have hca := hsplit a hal (Nat.le_max_left _ _) hpa
  have hcb := hsplit b hbl (Nat.le_max_right _ _) hpb
  have hok := unifyOk_of_compatPair _ _ _ hca hcb
  rw [unify, if_pos hok]
  exact Option.some_ne_none _

theorem broadcastToImpl_ok (a : ArrayView) (s : List Nat)
    (subok readonly : Bool) (hcompat : compatible a.shape s = true) :
    broadcastToImpl a (s.map (fun d : Nat => (d : Int))) subok readonly
      = .ok { a with
              shape := s
              strides := broadcastStrides a.shape a.strides s
              writeable := !readonly && a.writeable } := by
  have hle := compatible_length _ _ hcompat
  have htN : (s.map (fun d : Nat => (d : Int))).map Int.toNat = s := by
    rw [List.map_map]
    simp [Function.comp_def]
  have hguard : ((s.map (fun d : Nat => (d : Int))).isEmpty
      && !a.shape.isEmpty) = false := by
    cases s with
    | nil =>
      rw [List.length_eq_zero.mp (Nat.le_zero.mp hle)]
      rfl
    | cons _ _ => rfl
  have hneg : ((s.map (fun d : Nat => (d : Int))).any
      fun v => decide (v < 0)) = false := by
    simp only [List.any_eq_false, decide_eq_true_eq]
    intro v hv
    rcases List.mem_map.mp hv with ⟨d, _, rfl⟩
    exact not_lt.mpr (Int.natCast_nonneg d)
  rw [broadcastToImpl]
  rw [if_neg (by simp [hguard]), if_neg (by simp [hneg]), htN,
    if_pos hcompat]

theorem mapBroadcast_ok (s : List Nat) (subok : Bool) (args : List ArrayView)
    (h : ∀ a ∈ args, compatible a.shape s = true) :
    ∃ vs, mapBroadcast (s.map (fun d : Nat => (d : Int))) subok args
        = .ok vs ∧
      vs.length = args.length ∧ ∀ v ∈ vs, v.shape = s := by
  induction args with
  | nil => exact ⟨[], rfl, rfl, by simp⟩
  | cons a rest ih =>
    obtain ⟨vs, hok, hlen, hsh⟩ := ih (fun b hb => h b (by simp [hb]))
    refine ⟨{ a with
        shape := s
        strides := broadcastStrides a.shape a.strides s
        writeable := !false && a.writeable } :: vs, ?_, by simp [hlen], ?_⟩
    · rw [mapBroadcast, broadcastToImpl_ok a s subok false (h a (by simp)),
        hok]
    · intro v hv
      rcases List.mem_cons.mp hv with hv | hv
      · rw [hv]
      · exact hsh v hv

/-! ### C3 -/

/-- C3: the batched shape resolver of `broadcast_arrays` computes exactly
the pairwise right-aligned unification fold over all input shapes, with no
cap on the number of inputs; on any unifiable collection
`broadcast_arrays` returns one view per input, all with the unified shape
(`(1,3)` and `(3,1)` unify to `(3,3)`); any two non-unifiable input shapes
make it fail with the shape-mismatch error. -/
theorem broadcast_arrays_spec :
    (∀ shapes, bshape shapes = List.foldlM unify [] shapes) ∧
    (∀ (args : List ArrayView) (subok : Bool) (s : List Nat),
      bshape (args.map (·.shape)) = some s →
      ∃ vs, broadcast_arrays args subok = .ok vs ∧
        vs.length = args.length ∧ ∀ v ∈ vs, v.shape = s) ∧
    (∀ (args : List ArrayView) (subok : Bool) (a b : ArrayView),
      a ∈ args → b ∈ args → unify a.shape b.shape = none →
      broadcast_arrays args subok = .error .broadcastIncompatible) ∧
    unify [1, 3] [3, 1] = some [3, 3] := by
  refine ⟨bshape_eq_foldl, ?_, ?_, by decide⟩
  · intro args subok s hs
    have hfold : List.foldlM unify [] (args.map (·.shape)) = some s := by
      rw [← bshape_eq_foldl]
      exact hs
    have hcompatAll := (foldlM_unify_compat _ _ _ hfold).2
    have hred : broadcast_arrays args subok
        = (if args.all (fun a => a.shape == s) then .ok args
           else mapBroadcast (s.map (fun d : Nat => (d : Int))) subok args)
        := by
      rw [broadcast_arrays, hs]
    rw [hred]
    by_cases hall : args.all (fun a => a.shape == s)
    · rw [if_pos hall]
      refine ⟨args, rfl, rfl, ?_⟩
      intro v hv
      have h2 := List.all_eq_true.mp hall v hv
      simpa using h2
    · rw [if_neg hall]
      exact mapBroadcast_ok s subok args
        (fun a ha => hcompatAll a.shape (List.mem_map_of_mem _ ha))
  · intro args subok a b ha hb hu
    cases hsInfo : bshape (args.map (·.shape)) with
    | none =>
      rw [broadcast_arrays, hsInfo]
    | some s =>
      exfalso
      have hfold : List.foldlM unify [] (args.map (·.shape)) = some s := by
        rw [← bshape_eq_foldl]
        exact hsInfo
      have hcs := (foldlM_unify_compat _ _ _ hfold).2
      exact unify_ne_none_of_compat a.shape b.shape s
        (hcs _ (List.mem_map_of_mem _ ha))
        (hcs _ (List.mem_map_of_mem _ hb)) hu

/-- A 1×3 array. -/
def a13 : ArrayView :=
  { shape := [1, 3], strides := [3, 1], offset := 0, data := fun k => k
    storageId := 1, writeable := true, dtype := .base 0 }

/-- A 3×1 array. -/
def a31 : ArrayView :=
  { shape := [3, 1], strides := [1, 1], offset := 0, data := fun k => 2 * k
    storageId := 2, writeable := true, dtype := .base 0 }

/-- The broadcast view of `a13` at the unified shape `(3,3)`. -/
def bav13 : ArrayView := { a13 with shape := [3, 3], strides := [0, 1] }

/-- The broadcast view of `a31` at the unified shape `(3,3)`. -/
def bav31 : ArrayView := { a31 with shape := [3, 3], strides := [1, 0] }

/-- Witness for C3: shapes `(1,3)` and `(3,1)` unify to `(3,3)` and both
returned views carry the unified shape. -/
theorem broadcast_arrays_spec_witness :
    bshape ([a13, a31].map (·.shape)) = some [3, 3] ∧
    broadcast_arrays [a13, a31] = .ok [bav13, bav31] ∧
    bav13.shape = [3, 3] ∧ bav31.shape = [3, 3] := by
  have hb : bshape ([a13, a31].map (·.shape)) = some [3, 3] := by
    rw [bshape_eq_foldl]
    decide
  obtain ⟨vs, hok, hlen, hsh⟩ :=
    broadcast_arrays_spec.2.1 [a13, a31] false [3, 3] hb
  have hcalc : broadcast_arrays [a13, a31] = .ok [bav13, bav31] := by
    rw [broadcast_arrays, hb]
    rfl
  have hvs : vs = [bav13, bav31] := Except.ok.inj (hok.symm.trans hcalc)
  subst hvs
  exact ⟨hb, hcalc, hsh bav13 (by simp), hsh bav31 (by simp)⟩

end StrideTricks
